import Mathlib

/-
Verification development for scikit-maad, file maad/features/alpha_indices.py.

The Python functions are shallowly embedded as Lean functions. Exact
arithmetic stands in for float64: purely algebraic/comparison-based
functions are embedded over the rationals so they stay executable, while
the entropy family, which uses the transcendental log, is embedded over
the reals. Stateful behaviour (the in-place sort inside gini) is made
explicit by returning the final contents of the mutated array, and Python
exceptions are modelled with Except. The results of numpy float division,
which silently produces inf or nan on a zero denominator instead of
raising, are modelled by the extended value type NpF where that matters.
Utility functions imported from maad.util (index_bw, rle, linear_scale)
are not part of the embedded source file; they are modelled from the
specification of their interfaces, as marked in their doc comments.
-/

namespace AlphaIndices

section Helpers

variable {α : Type} [LinearOrderedField α]

/-- Mean of a 1-d array as numpy computes it: sum divided by length. The
empty list gives 0 in the model (numpy emits nan plus a warning there; no
theorem below depends on the empty case). -/
def npmean (l : List α) : α := l.sum / (l.length : α)

/-- Minimum of a 1-d array, np.min. The empty case (where numpy raises) is
given the irrelevant value 0 and is never relied upon. -/
def npmin (l : List α) : α :=
  match l with
  | [] => 0
  | a :: t => t.foldl min a

/-- Maximum of a 1-d array, np.max, with the same convention on empty input
as npmin. -/
def npmax (l : List α) : α :=
  match l with
  | [] => 0
  | a :: t => t.foldl max a

/-- Boolean-mask selection x[mask] over the leading axis. The model is
meaningful when the mask length equals the axis length: numpy raises an
IndexError on a length mismatch, so every theorem whose input could
violate that carries the shape compatibility as a hypothesis. -/
def maskSelect {β : Type} (mask : List Bool) (l : List β) : List β :=
  (mask.zip l).filterMap (fun p => if p.1 then some p.2 else none)

/-- Number of columns of a 2-d array, shape[1]: the length of its first
row (0 when there are no rows). -/
def ncols {β : Type} (rows : List (List β)) : ℕ := (rows.headD []).length

/-- Row k of a 2-d array, with the empty row for an out-of-range index. -/
def getRow {β : Type} (rows : List (List β)) (k : ℕ) : List β := rows.getD k []

/-- Total sum of a 2-d array (numpy sum with no axis argument). -/
def npsum2 (rows : List (List α)) : α := (rows.map List.sum).sum

/-- Minimum over all entries of a 2-d array (np.min with no axis). -/
def npmin2 (rows : List (List α)) : α := npmin rows.flatten

/-- Maximum over all entries of a 2-d array (np.max with no axis). -/
def npmax2 (rows : List (List α)) : α := npmax rows.flatten

/-- Transpose of a rectangular 2-d array, written as the numpy column
view: column j collects the j-th entry of every row. Spectrograms are
rectangular, so this agrees with the numpy transpose on every input the
source handles. -/
def transposeL (rows : List (List α)) : List (List α) :=
  (List.range (ncols rows)).map (fun j => rows.map (fun r => r.getD j 0))

/-- Mean along axis 0 of a 2-d array: one mean per column. -/
def npmean_axis0 (rows : List (List α)) : List α := (transposeL rows).map npmean

/-- Mean along axis 1 of a 2-d array: one mean per row. -/
def npmean_axis1 (rows : List (List α)) : List α := rows.map npmean

/-- First difference np.diff(l, 1) of a 1-d array. -/
def npdiff (l : List α) : List α := (l.zip l.tail).map (fun p => p.2 - p.1)

/-- Embedding of np.arange(start, stop, step): start + k*step for
k = 0, 1, ... as long as the value is below stop, matching the numpy
length formula max(0, ceil((stop-start)/step)). -/
def nparange [FloorRing α] (start stop step : α) : List α :=
  (List.range (Int.ceil ((stop - start) / step)).toNat).map
    (fun (k : ℕ) => start + (k : α) * step)

/-- Embedding of np.argmax for a 1-d array: index of the first maximal
entry. On empty input numpy raises; the model returns 0 and the empty case
is never relied upon. -/
def argmax0 : List α → ℕ
  | [] => 0
  | a :: t => if npmax (a :: t) ≤ a then 0 else argmax0 t + 1

/-- Modelled from the spec: index_bw(positions, (lo, hi)) from maad.util
(external interface, section 6) returns a boolean selector for positions
within the closed interval from lo to hi. The function body is not under
src. -/
def index_bw (fn : List α) (bw : α × α) : List Bool :=
  fn.map (fun f => decide (bw.1 ≤ f) && decide (f ≤ bw.2))

end Helpers

/-- Extended value produced by numpy float division: a finite value, a
signed infinity, or nan. Numpy division by zero warns and yields inf or
nan instead of raising, and that distinction is what several claims are
about, so it is kept explicit. -/
inductive NpF (α : Type) where
  | fin (x : α)
  | inf
  | ninf
  | nan
deriving DecidableEq, Repr

section NpFOps

variable {α : Type} [LinearOrderedField α]

/-- Division of two finite values with the IEEE-754 outcome numpy produces:
a finite quotient when the denominator is nonzero, otherwise a signed
infinity or (for 0/0) nan. -/
def npdiv (x y : α) : NpF α :=
  if y ≠ 0 then NpF.fin (x / y)
  else if 0 < x then NpF.inf
  else if x < 0 then NpF.ninf
  else NpF.nan

/-- Addition on extended values: nan is absorbing and opposite infinities
give nan, as in IEEE-754. -/
def NpF.add : NpF α → NpF α → NpF α
  | NpF.nan, _ => NpF.nan
  | _, NpF.nan => NpF.nan
  | NpF.inf, NpF.ninf => NpF.nan
  | NpF.ninf, NpF.inf => NpF.nan
  | NpF.inf, _ => NpF.inf
  | _, NpF.inf => NpF.inf
  | NpF.ninf, _ => NpF.ninf
  | _, NpF.ninf => NpF.ninf
  | NpF.fin x, NpF.fin y => NpF.fin (x + y)

/-- Sum of a list of extended values, folding NpF.add from a finite 0. -/
def NpF.sum (l : List (NpF α)) : NpF α := l.foldl NpF.add (NpF.fin 0)

/-- True exactly on finite extended values. -/
def NpF.isFinite : NpF α → Bool
  | NpF.fin _ => true
  | _ => false

end NpFOps

section ScoreGini

variable {α : Type} [LinearOrderedField α]

/-- Embedding of score(x, threshold, axis) from alpha_indices.py lines
307-336 for a 1-d array: the count of entries at or above the threshold
and that count normalized by the array length, returned as (s, count) in
the source order. -/
def score (x : List α) (threshold : α) : α × ℕ :=
  let xb := x.map (fun v => decide (threshold ≤ v))
  let count := (xb.filter id).length
  ((count : α) / (x.length : α), count)

/-- Embedding of score(x, threshold, axis) for a 2-d array: the source
thresholds the whole matrix and reduces along the chosen axis, which
coincides with applying the 1-d score to every line along that axis
(columns for axis 0, rows for axis 1). -/
def score_mat (x : List (List α)) (threshold : α) (axis : ℕ) : List α × List ℕ :=
  let lines := if axis = 0 then transposeL x else x
  (lines.map (fun l => (score l threshold).1), lines.map (fun l => (score l threshold).2))

/-- Embedding of gini(x, corr) from alpha_indices.py lines 339-371. The
source mutates its argument with the in-place x.sort() before forming the
rank-weighted sum, so the embedding returns the pair of the Gini value and
the final contents of x after the call. -/
def gini (x : List α) (corr : Bool) : α × List α :=
  if x.sum = 0 then (0, x)
  else
    let n := x.length
    let xs := x.insertionSort (· ≤ ·)
    let g0 := (xs.enum.map (fun p => p.2 * ((p.1 + 1 : ℕ) : α))).sum
    let g1 := 2 * g0 / xs.sum - ((n : α) + 1)
    let g2 := if corr then g1 / ((n : α) - 1) else g1 / (n : α)
    (g2, xs)

end ScoreGini

/-- Smallest positive normal float64, sys.float_info.min, bound to the
module constant named by the source as a minimum value (line 38). -/
noncomputable def MINFLOAT : ℝ := (2 : ℝ) ^ (-1022 : ℤ)

/-- Modelled from the spec: linear_scale(x, minval, maxval) from maad.util
(external interface, section 6), an affine rescale of x into the interval
from minval to maxval. The function body is not under src. -/
noncomputable def linear_scale (x : List ℝ) (minval maxval : ℝ) : List ℝ :=
  let mn := npmin x
  let mx := npmax x
  x.map (fun v => (v - mn) * (maxval - minval) / (mx - mn) + minval)

/-- Modelled from the spec: linear_scale applied to a 2-d array, rescaling
elementwise with the global minimum and maximum, as used by entropy on
matrix input. -/
noncomputable def linear_scale2 (x : List (List ℝ)) (minval maxval : ℝ) : List (List ℝ) :=
  let mn := npmin2 x
  let mx := npmax2 x
  x.map (fun row => row.map (fun v => (v - mn) * (maxval - minval) / (mx - mn) + minval))

/-- Embedding of entropy(datain, axis) from alpha_indices.py lines 252-304
for a 1-d input, where ndim = 1 so the dimension check permits only
axis = 0. Option.none stands for the Python None sentinel returned on the
warning paths. The source checks, in order: empty axis, axis of length
one, a zero global sum; otherwise it rescales a signal with negative
entries into the unit interval, normalizes to a probability mass function,
replaces zero entries by the minimum positive float and returns the
normalized Shannon entropy. -/
noncomputable def entropy_vec (datain : List ℝ) (axis : ℕ) : Option ℝ :=
  if axis = 0 then
    if datain.length = 0 then none
    else if datain.length = 1 then some 0
    else if datain.sum = 0 then some 0
    else
      let d := if npmin datain < 0 then linear_scale datain 0 1 else datain
      let n := d.length
      let pmf := d.map (fun v => v / d.sum)
      let pmf2 := pmf.map (fun p => if p = 0 then MINFLOAT else p)
      some (-(pmf2.map (fun p => p * Real.log p)).sum / Real.log (n : ℝ))
  else none

/-- Embedding of entropy(datain, axis) from alpha_indices.py lines 252-304
for a 2-d input given as a list of rows, with axis 0 or 1. The scalar
results of the degenerate branches are returned through Sum.inl and the
per-line entropy vector of the main branch through Sum.inr; Option.none is
the Python None sentinel of the warning paths. -/
noncomputable def entropy_mat (datain : List (List ℝ)) (axis : ℕ) : Option (ℝ ⊕ List ℝ) :=
  if axis < 2 then
    let shape := if axis = 0 then datain.length else ncols datain
    if shape = 0 then none
    else if shape = 1 then some (Sum.inl 0)
    else if npsum2 datain = 0 then some (Sum.inl 0)
    else
      let d := if npmin2 datain < 0 then linear_scale2 datain 0 1 else datain
      let n := shape
      let pmf :=
        if axis = 0 then
          let colsums := (transposeL d).map List.sum
          d.map (fun row => (row.zip colsums).map (fun p => p.1 / p.2))
        else
          d.map (fun row => row.map (fun v => v / row.sum))
      let pmf2 := pmf.map (fun row => row.map (fun p => if p = 0 then MINFLOAT else p))
      let H :=
        if axis = 0 then
          (transposeL pmf2).map (fun col => -(col.map (fun p => p * Real.log p)).sum / Real.log (n : ℝ))
        else
          pmf2.map (fun row => -(row.map (fun p => p * Real.log p)).sum / Real.log (n : ℝ))
      some (Sum.inr H)
  else none

section Binning

variable {α : Type} [LinearOrderedField α] [FloorRing α]

/-- Embedding of intoBins(x, an, bin_step, axis, bin_min, bin_max) from
alpha_indices.py lines 45-126 for a 2-d x given as a list of rows paired
with the position vector an. The source first raises when bin_step is
below the native resolution an[1]-an[0]; that exception is the Except
error case. Otherwise the bin edges are np.arange(bin_min,
bin_max+bin_step, bin_step), each consecutive edge pair selects the
positions in its half-open interval, the selected slice is averaged along
the axis (columns for axis 0, rows for axis 1; any other axis leaves the
accumulator empty, as in the source loop), the result is rescaled by the
mean bin occupancy, and the last edge is dropped from the returned bin
positions. The display branch is pure plotting and is omitted. -/
def intoBins (x : List (List α)) (an : List α) (bin_step : α) (axis : ℕ)
    (bin_min : Option α) (bin_max : Option α) :
    Except String (List (List α) × List α) :=
  if bin_step < an.getD 1 0 - an.getD 0 0 then
    Except.error "bin step must be larger or equal than the actual resolution of x"
  else
    let bmin := bin_min.getD (an.getD 0 0)
    let bmax := bin_max.getD (an.getD (an.length - 1) 0)
    let bins := nparange bmin (bmax + bin_step) bin_step
    let edges := bins.zip bins.tail
    let mask := fun (e : α × α) => an.map (fun a => decide (e.1 ≤ a) && decide (a < e.2))
    let s : List ℕ := edges.map (fun e => ((mask e).filter id).length)
    let xbin : List (List α) :=
      if axis = 0 then edges.map (fun e => npmean_axis0 (maskSelect (mask e) x))
      else if axis = 1 then edges.map (fun e => npmean_axis1 (x.map (fun row => maskSelect (mask e) row)))
      else []
    let sbar := npmean (s.map (fun (c : ℕ) => (c : α)))
    Except.ok (xbin.map (fun row => row.map (fun v => v * sbar)), bins.dropLast)

end Binning

/-- Denominator of the global branch of acousticComplexityIndex (line
479): the plain total sum of Sxx, written without any zero guard in the
source. -/
def aciGlobalDenominator (Sxx : List (List ℚ)) : ℚ := npsum2 Sxx

/-- Embedding of acousticComplexityIndex(Sxx, norm) from alpha_indices.py
lines 427-484. The absolute first differences along time are divided by
the per-row sum (norm per_bin) or by the unguarded total sum (norm
global); the division is numpy float division, modelled by npdiv into NpF
so that a zero denominator shows up as inf or nan rather than as an
exception. A norm string that matches neither branch leaves ACI_xx
unbound, which raises NameError in Python, modelled as the Except error
case. Returns (ACI_xx, ACI_per_bin, ACI_sum). -/
def acousticComplexityIndex (Sxx : List (List ℚ)) (norm : String) :
    Except String (List (List (NpF ℚ)) × List (NpF ℚ) × NpF ℚ) :=
  if norm = "per_bin" then
    let ACI_xx := Sxx.map (fun row => (npdiff row).map (fun d => npdiv |d| row.sum))
    let per_bin := ACI_xx.map NpF.sum
    Except.ok (ACI_xx, per_bin, NpF.sum per_bin)
  else if norm = "global" then
    let ACI_xx := Sxx.map (fun row => (npdiff row).map (fun d => npdiv |d| (aciGlobalDenominator Sxx)))
    let per_bin := ACI_xx.map NpF.sum
    Except.ok (ACI_xx, per_bin, NpF.sum per_bin)
  else Except.error "NameError: name ACI_xx is not defined"

/-- Embedding of _energy_per_freqbin(PSDxx, fn, flim, bin_step) from
alpha_indices.py lines 745-757: re-bin the power spectrogram with
intoBins from bin_min 0 to bin_max fn[-1], select the bins inside flim
with index_bw and sum all selected entries. -/
def _energy_per_freqbin (PSDxx : List (List ℚ)) (fn : List ℚ) (flim : ℚ × ℚ)
    (bin_step : ℚ) : Except String ℚ :=
  match intoBins PSDxx fn bin_step 0 (some 0) (some (fn.getD (fn.length - 1) 0)) with
  | Except.error e => Except.error e
  | Except.ok (PSDxx_bins, bins) =>
    let indf := index_bw bins flim
    Except.ok (npsum2 (maskSelect indf PSDxx_bins))

/-- Embedding of soundscapeIndex(Sxx, fn, flim_bioPh, flim_antroPh, step)
from alpha_indices.py lines 760-820. When step is None the native
frequency resolution fn[1]-fn[0] is used, the amplitude spectrogram is
squared into a power spectrogram, band energies are computed with
_energy_per_freqbin, and the two final numpy divisions are modelled with
npdiv so a zero anthropophony energy yields the inf sentinel instead of an
exception. Returns (NDSI, ratioBA, antroPh, bioPh). -/
def soundscapeIndex (Sxx : List (List ℚ)) (fn : List ℚ) (flim_bioPh flim_antroPh : ℚ × ℚ)
    (step : Option ℚ) : Except String (NpF ℚ × NpF ℚ × ℚ × ℚ) :=
  let step2 := step.getD (fn.getD 1 0 - fn.getD 0 0)
  let PSDxx := Sxx.map (fun row => row.map (fun v => v ^ 2))
  match _energy_per_freqbin PSDxx fn flim_bioPh step2 with
  | Except.error e => Except.error e
  | Except.ok bioPh =>
    match _energy_per_freqbin PSDxx fn flim_antroPh step2 with
    | Except.error e => Except.error e
    | Except.ok antroPh =>
      Except.ok (npdiv (bioPh - antroPh) (bioPh + antroPh), npdiv bioPh antroPh, antroPh, bioPh)

/-- Modelled from the spec: rle(binary_vector) from maad.util (external
interface, section 6), run-length encoding returning parallel arrays of
run lengths and run values, here a single list of (length, value) pairs.
The function body is not under src. -/
def rle {β : Type} [DecidableEq β] : List β → List (ℕ × β)
  | [] => []
  | a :: t =>
    match rle t with
    | [] => [(1, a)]
    | (n, b) :: r => if a = b then (n + 1, b) :: r else (1, a) :: (n, b) :: r

/-- List lookup at a signed index, 0 outside the list; used to give the
morphology operators their zero border value. -/
def getZ (l : List ℕ) (i : ℤ) : ℕ :=
  if 0 ≤ i then l.getD i.toNat 0 else 0

/-- Modelled from the spec: scipy binary_erosion of a 0/1 vector with a
flat structuring element of the given size (morphological opening,
section 4.3 and glossary), origin at the central element, border value 0.
A point survives exactly when the whole structuring element fits inside
the foreground around it. -/
def binary_erosion (l : List ℕ) (size : ℕ) : List ℕ :=
  let o : ℤ := (size : ℤ) / 2
  (List.range l.length).map (fun (i : ℕ) =>
    if (List.range size).all (fun (j : ℕ) => decide (0 < getZ l ((i : ℤ) + (j : ℤ) - o)))
      then 1 else 0)

/-- Modelled from the spec: scipy binary_dilation of a 0/1 vector with a
flat structuring element of the given size, origin at the central element,
border value 0. A point is set exactly when the structuring element placed
there meets the foreground. -/
def binary_dilation (l : List ℕ) (size : ℕ) : List ℕ :=
  let o : ℤ := (size : ℤ) / 2
  (List.range l.length).map (fun (i : ℕ) =>
    if (List.range size).any (fun (j : ℕ) => decide (0 < getZ l ((i : ℤ) + (j : ℤ) - o)))
      then 1 else 0)

/-- Model of the Python builtin round on an exact rational:
round-half-to-even, as used for rejectLength. -/
def pyround (x : ℚ) : ℤ :=
  let n := Int.floor x
  let r := x - (n : ℚ)
  if r < 1 / 2 then n
  else if 1 / 2 < r then n + 1
  else if n % 2 = 0 then n else n + 1

/-- Embedding of acoustic_events(xdB, dt, dB_threshold, rejectDuration)
from alpha_indices.py lines 953-1041 for a 1-d input. The signal is
binarized at the threshold; when rejectDuration is given the 0/1 vector
goes through a morphological opening with a flat element of length
rejectLength+1 where rejectLength = int(round(rejectDuration/dt)); the
run-length encoding then yields the total and mean duration of the
value-1 runs and the run rate over the observed duration (len-1)*dt.
Returns (EVNsum, EVNmean, EVNcount, EVN). -/
def acoustic_events (xdB : List ℚ) (dt : ℚ) (dB_threshold : ℚ) (rejectDuration : Option ℚ) :
    ℚ × ℚ × ℚ × List ℕ :=
  let duration := ((xdB.length : ℚ) - 1) * dt
  let EVN0 : List ℕ := xdB.map (fun v => if dB_threshold ≤ v then 1 else 0)
  let EVN :=
    match rejectDuration with
    | none => EVN0
    | some rd =>
      let rejectLength := (pyround (rd / dt)).toNat
      binary_dilation (binary_erosion EVN0 (rejectLength + 1)) (rejectLength + 1)
  let runs := rle EVN
  let onesLengths : List ℕ := (runs.filter (fun p => decide (p.2 = 1))).map (fun p => p.1)
  let EVNmean := if onesLengths.sum ≠ 0 then npmean (onesLengths.map (fun c => (c : ℚ))) * dt else 0
  let EVNsum := ((onesLengths.sum : ℕ) : ℚ) * dt
  let EVNcount := ((((runs.map (fun p => p.2)).sum : ℕ)) : ℚ) / duration
  (EVNsum, EVNmean, EVNcount, EVN)

/-- Variance of a 1-d array, np.var with the default zero delta degrees of
freedom: mean squared deviation from the mean. -/
noncomputable def npvar (l : List ℝ) : ℝ := npmean (l.map (fun v => (v - npmean l) ^ 2))

/-- Embedding of skewness(x, axis=0) from alpha_indices.py lines 130-163
for a 1-d ndarray input: third standardized moment with the sample-size
minus one denominator. -/
noncomputable def skewness (x : List ℝ) : ℝ :=
  let Nf := x.length
  let mean_x := npmean x
  let std_x := Real.sqrt (npvar x)
  let z := x.map (fun v => v - mean_x)
  ((z.map (fun v => v ^ 3)).sum / ((Nf : ℝ) - 1)) / std_x ^ 3

/-- Embedding of kurtosis(x, axis=0) from alpha_indices.py lines 166-197
for a 1-d ndarray input: fourth standardized moment with the sample-size
minus one denominator. -/
noncomputable def kurtosis (x : List ℝ) : ℝ :=
  let Nf := x.length
  let mean_x := npmean x
  let std_x := Real.sqrt (npvar x)
  let z := x.map (fun v => v - mean_x)
  ((z.map (fun v => v ^ 4)).sum / ((Nf : ℝ) - 1)) / std_x ^ 4

/-- Embedding of np.histogram(vals, bins=N, range=(lo,hi)) counts as used
by spectral_entropy: N equal-width bins over the closed range, values
outside the range ignored, each bin half-open except the last, which is
closed; a degenerate range with lo = hi is widened by a half on each side
as numpy does. Counts are returned as reals since they are immediately
normalized. -/
noncomputable def nphistogram (vals : List ℝ) (N : ℕ) (lo hi : ℝ) : List ℝ :=
  let lo2 := if lo = hi then lo - 1 / 2 else lo
  let hi2 := if lo = hi then hi + 1 / 2 else hi
  let w := (hi2 - lo2) / (N : ℝ)
  (List.range N).map (fun (i : ℕ) =>
    (((vals.filter (fun v => decide (lo2 + (i : ℝ) * w ≤ v) &&
      (if i = N - 1 then decide (v ≤ hi2) else decide (v < lo2 + ((i : ℝ) + 1) * w)))).length : ℕ) : ℝ))

/-- Argument shape of the flim parameter of spectral_entropy: the Python
None default, a (fmin, fmax) tuple, or a bare scalar number. -/
inductive FlimArg where
  | noneArg
  | tuple (fmin fmax : ℝ)
  | scalar (c : ℝ)

/-- Embedding of spectral_entropy(X, fn, flim) from alpha_indices.py lines
636-737 for a 2-d spectrogram X (rows are frequency bins, columns time
frames). A scalar flim prints a warning and falls through the bare return,
so the call yields the Python None sentinel, modelled as Except.ok none:
no exception is raised. A None flim defaults to the full range of fn.
Inside the band the six statistics EAS, ECU, ECV, EPS, KURT and SKEW are
computed; whenever an inner entropy call returns its None sentinel, the
following arithmetic on it raises TypeError in Python, modelled as the
Except error case. The display branch is pure plotting and is omitted. -/
noncomputable def spectral_entropy (X : List (List ℝ)) (fn : List ℝ) (flim : FlimArg) :
    Except String (Option (ℝ × ℝ × ℝ × ℝ × ℝ × ℝ)) :=
  match flim with
  | FlimArg.scalar _ => Except.ok none
  | _ =>
    let fl : ℝ × ℝ :=
      match flim with
      | FlimArg.noneArg => (npmin fn, npmax fn)
      | FlimArg.tuple a b => (a, b)
      | FlimArg.scalar c => (c, c)
    let iBAND := index_bw fn fl
    let Xsel := maskSelect iBAND X
    let X_mean := Xsel.map npmean
    match entropy_vec X_mean 0 with
    | none => Except.error "TypeError"
    | some Hf =>
      let EAS := 1 - Hf
      let X_Var := Xsel.map npvar
      match entropy_vec X_Var 0 with
      | none => Except.error "TypeError"
      | some Hf_var =>
        let ECU := 1 - Hf_var
        let X_CoV := Xsel.map (fun row => npvar row / npmax row)
        match entropy_vec X_CoV 0 with
        | none => Except.error "TypeError"
        | some Hf_CoV =>
          let ECV := 1 - Hf_CoV
          let ioffset := argmax0 (iBAND.map (fun b => if b then (1 : ℝ) else 0))
          let Nbins := (iBAND.filter id).length
          let imax_X := (transposeL Xsel).map (fun col => argmax0 col + ioffset)
          let imax_Xf := imax_X.map (fun i => fn.getD i 0)
          let max_X_bin0 := nphistogram imax_Xf Nbins fl.1 fl.2
          let max_X_bin := max_X_bin0.map (fun c => c / max_X_bin0.sum)
          match entropy_vec max_X_bin 0 with
          | none => Except.error "TypeError"
          | some Hf_fmax =>
            let EPS := 1 - Hf_fmax
            let KURT := kurtosis max_X_bin
            let SKEW := skewness max_X_bin
            Except.ok (some (EAS, ECU, ECV, EPS, KURT, SKEW))

section OrderLemmas

variable {α : Type} [LinearOrder α]

lemma le_foldl_max (l : List α) (a : α) : a ≤ l.foldl max a := by
  induction l generalizing a with
  | nil => exact le_refl a
  | cons b t ih => exact le_trans (le_max_left a b) (ih (max a b))

lemma mem_le_foldl_max (l : List α) (a v : α) (h : v ∈ l) : v ≤ l.foldl max a := by
  induction l generalizing a with
  | nil => cases h
  | cons b t ih =>
    rcases List.mem_cons.mp h with rfl | hm
    · exact le_trans (le_max_right a v) (le_foldl_max t _)
    · exact ih _ hm

lemma foldl_min_le (l : List α) (a : α) : l.foldl min a ≤ a := by
  induction l generalizing a with
  | nil => exact le_refl a
  | cons b t ih => exact le_trans (ih (min a b)) (min_le_left a b)

lemma foldl_min_le_mem (l : List α) (a v : α) (h : v ∈ l) : l.foldl min a ≤ v := by
  induction l generalizing a with
  | nil => cases h
  | cons b t ih =>
    rcases List.mem_cons.mp h with rfl | hm
    · exact le_trans (foldl_min_le t _) (min_le_right a v)
    · exact ih _ hm

lemma le_foldl_min (l : List α) (a c : α) (ha : c ≤ a) (h : ∀ v ∈ l, c ≤ v) :
    c ≤ l.foldl min a := by
  induction l generalizing a with
  | nil => exact ha
  | cons b t ih =>
    exact ih (min a b) (le_min ha (h b (List.mem_cons_self b t)))
      (fun v hv => h v (List.mem_cons_of_mem b hv))

end OrderLemmas

section HelperLemmas

variable {α : Type} [LinearOrderedField α]

lemma npmax_ge (x : List α) (v : α) (h : v ∈ x) : v ≤ npmax x := by
  match x with
  | [] => cases h
  | a :: t =>
    rcases List.mem_cons.mp h with rfl | hm
    · exact le_foldl_max t v
    · exact mem_le_foldl_max t a v hm

lemma npmin_le (x : List α) (v : α) (h : v ∈ x) : npmin x ≤ v := by
  match x with
  | [] => cases h
  | a :: t =>
    rcases List.mem_cons.mp h with rfl | hm
    · exact foldl_min_le t v
    · exact foldl_min_le_mem t a v hm

lemma npmin_nonneg (x : List α) (h : ∀ v ∈ x, 0 ≤ v) : 0 ≤ npmin x := by
  match x with
  | [] => exact le_refl 0
  | a :: t =>
    exact le_foldl_min t a 0 (h a (List.mem_cons_self a t))
      (fun v hv => h v (List.mem_cons_of_mem a hv))

lemma length_filter_id_map {β : Type} (p : β → Bool) (l : List β) :
    ((l.map p).filter id).length = (l.filter p).length := by
  induction l with
  | nil => rfl
  | cons a t ih =>
    by_cases h : p a <;> simp [List.filter_cons, h, ih]

lemma map_eq_replicate_of_mem {β γ : Type} (l : List β) (f : β → γ) (c : γ)
    (h : ∀ v ∈ l, f v = c) : l.map f = List.replicate l.length c := by
  induction l with
  | nil => rfl
  | cons a t ih =>
    rw [List.map_cons, h a (List.mem_cons_self a t),
      ih (fun v hv => h v (List.mem_cons_of_mem a hv)), List.length_cons,
      List.replicate_succ]

lemma sum_zero_of_nonneg (l : List α) (h : ∀ v ∈ l, 0 ≤ v) (h0 : l.sum = 0) :
    ∀ v ∈ l, v = 0 := by
  intro v hv
  by_contra hne
  have hvpos : 0 < v := lt_of_le_of_ne (h v hv) (Ne.symm hne)
  have hle : v ≤ l.sum := List.single_le_sum h v hv
  rw [h0] at hle
  exact absurd (lt_of_lt_of_le hvpos hle) (lt_irrefl 0)

lemma sum_pos_of_mem (l : List α) (h : ∀ v ∈ l, 0 ≤ v) (v : α) (hv : v ∈ l)
    (hvpos : 0 < v) : 0 < l.sum :=
  lt_of_lt_of_le hvpos (List.single_le_sum h v hv)

end HelperLemmas

/-- Claim C8: for every 1-d array x and every threshold t, score returns a
fraction in [0,1] and a count in [0, len(x)], the count being exactly the
number of entries at or above t; in particular at threshold max(x)+1 both
the fraction and the count are 0. -/
theorem score_props (x : List ℚ) (t : ℚ) (hx : x ≠ []) :
    (0 ≤ (score x t).1 ∧ (score x t).1 ≤ 1) ∧
    ((score x t).2 = (x.filter (fun v => decide (t ≤ v))).length ∧
      (score x t).2 ≤ x.length) ∧
    score x (npmax x + 1) = (0, 0) := by
  have hlen : (0 : ℚ) < (x.length : ℚ) := by
    exact_mod_cast List.length_pos.mpr hx
  have hcount : ∀ u : ℚ, (score x u).2 = (x.filter (fun v => decide (u ≤ v))).length := by
    intro u
    simp only [score]
    exact length_filter_id_map _ x
  have hcle : ∀ u : ℚ, (score x u).2 ≤ x.length := by
    intro u
    rw [hcount u]
    exact List.length_filter_le _ x
  refine ⟨⟨?_, ?_⟩, ⟨hcount t, hcle t⟩, ?_⟩
  · exact div_nonneg (by positivity) (le_of_lt hlen)
  · have : ((score x t).2 : ℚ) ≤ (x.length : ℚ) := by exact_mod_cast hcle t
    simpa [score] using (div_le_one hlen).mpr (by simpa [score] using this)
  · have hfil : x.filter (fun v => decide (npmax x + 1 ≤ v)) = [] := by
      rw [List.filter_eq_nil_iff]
      intro v hv
      simp only [decide_eq_true_eq, not_le]
      exact lt_of_le_of_lt (npmax_ge x v hv) (lt_add_one _)
    have h2 : (score x (npmax x + 1)).2 = 0 := by rw [hcount, hfil]; rfl
    have h1 : (score x (npmax x + 1)).1 = 0 := by
      simp only [score] at h2 ⊢
      rw [h2]
      simp
    exact Prod.ext h1 h2

/-- Claim C8 witness: instantiation of score_props at x = [1,2,3], t = 2. -/
theorem score_props_witness :
    (0 ≤ (score ([1, 2, 3] : List ℚ) 2).1 ∧ (score ([1, 2, 3] : List ℚ) 2).1 ≤ 1) ∧
    ((score ([1, 2, 3] : List ℚ) 2).2
        = (([1, 2, 3] : List ℚ).filter (fun v => decide ((2 : ℚ) ≤ v))).length ∧
      (score ([1, 2, 3] : List ℚ) 2).2 ≤ ([1, 2, 3] : List ℚ).length) ∧
    score ([1, 2, 3] : List ℚ) (npmax [1, 2, 3] + 1) = (0, 0) :=
  score_props [1, 2, 3] 2 (by decide)

/-- Claim C1 counterexample: gini is not free of effects on its input
array: called on [2,1] (any corr), the array afterwards holds [1,2] — the
in-place x.sort() has reordered it — so the input does not keep the same
values in the same order. -/
theorem gini_mutates_input :
    (gini ([2, 1] : List ℚ) false).2 = [1, 2] ∧ ([1, 2] : List ℚ) ≠ [2, 1] := by
  constructor
  · have hs : ([2, 1] : List ℚ).sum ≠ 0 := by norm_num
    simp only [gini, if_neg hs]
    decide
  · decide

/-- Claim C1 amended: gini sorts its input array in place. After the call
the array holds the same multiset of values, past the early zero-sum
return it is in ascending order, and the array is unchanged if and only if
it was already sorted or its sum is zero — so on every unsorted input of
nonzero sum the call mutates the caller's array. -/
theorem gini_state (x : List ℚ) (corr : Bool) :
    (gini x corr).2.Perm x ∧
    (x.sum ≠ 0 → (gini x corr).2.Sorted (· ≤ ·)) ∧
    ((gini x corr).2 = x ↔ (x.Sorted (· ≤ ·) ∨ x.sum = 0)) := by
  by_cases h : x.sum = 0
  · have hst : (gini x corr).2 = x := by simp only [gini, if_pos h]
    rw [hst]
    exact ⟨List.Perm.refl x, fun h0 => absurd h h0,
      ⟨fun _ => Or.inr h, fun _ => rfl⟩⟩
  · have hst : (gini x corr).2 = x.insertionSort (· ≤ ·) := by
      simp only [gini, if_neg h]
    rw [hst]
    refine ⟨List.perm_insertionSort _ x,
      fun _ => List.sorted_insertionSort _ x, ⟨fun he => ?_, fun hs => ?_⟩⟩
    · exact Or.inl (he ▸ List.sorted_insertionSort (· ≤ ·) x)
    · rcases hs with hs | h0
      · exact hs.insertionSort_eq
      · exact absurd h0 h

/-- Claim C1 amended witness: gini_state applied at the unsorted nonzero
input [2,1] yields a sorted post-state that differs from the input. -/
theorem gini_state_witness :
    (gini ([2, 1] : List ℚ) false).2.Perm [2, 1] ∧
    (gini ([2, 1] : List ℚ) false).2.Sorted (· ≤ ·) ∧
    ¬ (gini ([2, 1] : List ℚ) false).2 = [2, 1] := by
  obtain ⟨hp, hs, hiff⟩ := gini_state ([2, 1] : List ℚ) false
  refine ⟨hp, hs (by norm_num), fun he => ?_⟩
  rcases hiff.mp he with h | h
  · exact absurd h (by decide)
  · exact absurd h (by norm_num)

/-- Claim C10: entropy returns the scalar 0 for every input whose global
sum over all entries is zero — including signed inputs with cancelling
entries such as [1,-1] — because the global-sum check runs before the
negative-value rescaling; and on a 2-d input the single global check
yields the one scalar 0 for every line along the axis at once. -/
theorem entropy_zero_sum (x : List ℝ) (X : List (List ℝ)) (axis : ℕ)
    (hx : x ≠ []) (hsum : x.sum = 0) (haxis : axis < 2)
    (hshape : (if axis = 0 then X.length else ncols X) ≠ 0)
    (hSum : npsum2 X = 0) :
    entropy_vec x 0 = some 0 ∧ entropy_mat X axis = some (Sum.inl 0) := by
  constructor
  · have hlen : x.length ≠ 0 := by
      simpa [List.length_eq_zero] using hx
    by_cases h1 : x.length = 1
    · simp [entropy_vec, hlen, h1]
    · simp [entropy_vec, hlen, h1, hsum]
  · by_cases h1 : (if axis = 0 then X.length else ncols X) = 1
    · simp [entropy_mat, haxis, hshape, h1]
    · simp [entropy_mat, haxis, hshape, h1, hSum]

/-- Claim C10 witness: instantiation of entropy_zero_sum at the signed
vector [1,-1] and the 2-d input [[1,2],[-1,-2]] with axis 0, whose rows
have nonzero sums while the global sum is zero. -/
theorem entropy_zero_sum_witness :
    entropy_vec [1, -1] 0 = some 0 ∧ entropy_mat [[1, 2], [-1, -2]] 0 = some (Sum.inl 0) :=
  entropy_zero_sum [1, -1] [[1, 2], [-1, -2]] 0 (by simp) (by norm_num)
    (by norm_num) (by simp) (by simp [npsum2]; norm_num)

lemma entropy_vec_main (l : List ℝ) (h0 : ¬ l.length = 0) (h1 : ¬ l.length = 1)
    (hs : ¬ l.sum = 0) (hm : ¬ npmin l < 0) :
    entropy_vec l 0 = some (-(((l.map (fun v => v / l.sum)).map
        (fun p => if p = 0 then MINFLOAT else p)).map (fun p => p * Real.log p)).sum
      / Real.log (l.length : ℝ)) := by
  simp [entropy_vec, h0, h1, hs, hm]

/-- Claim C9: entropy is invariant to rescaling by a positive constant on
nonnegative arrays with no zero entries: normalizing by the sum cancels
the scale, the zero-sum and negative-rescale branches are not taken, and
no probability mass is zero so the minimum-float replacement is inert. -/
theorem entropy_scale_invariant (x : List ℝ) (c : ℝ) (hc : 0 < c)
    (hnonneg : ∀ v ∈ x, 0 ≤ v) (hnz : ∀ v ∈ x, v ≠ 0) :
    entropy_vec (x.map (fun v => c * v)) 0 = entropy_vec x 0 := by
  have hpos : ∀ v ∈ x, 0 < v := fun v hv =>
    lt_of_le_of_ne (hnonneg v hv) (Ne.symm (hnz v hv))
  by_cases hxe : x = []
  · subst hxe; rfl
  · by_cases hlen1 : x.length = 1
    · simp [entropy_vec, hlen1]
    · have hlen0 : ¬ x.length = 0 := by simpa [List.length_eq_zero] using hxe
      have hsum : 0 < x.sum := List.sum_pos x hpos hxe
      have hsum2 : (x.map (fun v => c * v)).sum = c * x.sum := by
        simpa using List.sum_map_mul_left x (fun v => v) c
      have hcs : ¬ (x.map (fun v => c * v)).sum = 0 := by
        rw [hsum2]; positivity
      have hmin1 : ¬ npmin x < 0 := not_lt.mpr (npmin_nonneg x hnonneg)
      have hmin2 : ¬ npmin (x.map (fun v => c * v)) < 0 := by
        refine not_lt.mpr (npmin_nonneg _ ?_)
        intro v hv
        rcases List.mem_map.mp hv with ⟨w, hw, rfl⟩
        exact mul_nonneg (le_of_lt hc) (hnonneg w hw)
      have hpmf : (x.map (fun v => c * v)).map
            (fun v => v / (x.map (fun v => c * v)).sum)
          = x.map (fun v => v / x.sum) := by
        rw [hsum2, List.map_map]
        refine List.map_congr_left ?_
        intro v _
        exact mul_div_mul_left v x.sum (ne_of_gt hc)
      rw [entropy_vec_main x hlen0 hlen1 (ne_of_gt hsum) hmin1,
        entropy_vec_main (x.map (fun v => c * v)) (by simpa [List.length_eq_zero] using hxe)
          (by simpa using hlen1) hcs hmin2,
        hpmf, List.length_map]

/-- Claim C9 witness: instantiation of entropy_scale_invariant at the
array [1,2] and the constant 2. -/
theorem entropy_scale_invariant_witness :
    entropy_vec (([1, 2] : List ℝ).map (fun v => 2 * v)) 0 = entropy_vec [1, 2] 0 :=
  entropy_scale_invariant [1, 2] 2 (by norm_num)
    (by intro v hv; rcases List.mem_cons.mp hv with rfl | hv2; · norm_num
        · rcases List.mem_cons.mp hv2 with rfl | hv3; · norm_num
          · cases hv3)
    (by intro v hv; rcases List.mem_cons.mp hv with rfl | hv2; · norm_num
        · rcases List.mem_cons.mp hv2 with rfl | hv3; · norm_num
          · cases hv3)

lemma plog_zero_list (z : List ℝ) (s : ℝ) (hz : ∀ v ∈ z, v = 0) :
    (((z.map (fun v => v / s)).map (fun p => if p = 0 then MINFLOAT else p)).map
      (fun p => p * Real.log p)).sum = (z.length : ℝ) * (MINFLOAT * Real.log MINFLOAT) := by
  induction z with
  | nil => simp
  | cons a t ih =>
    have ha : a = 0 := hz a (List.mem_cons_self a t)
    have ht := ih (fun v hv => hz v (List.mem_cons_of_mem a hv))
    subst ha
    simp only [List.map_cons, List.sum_cons, zero_div, if_pos rfl, ht,
      List.length_cons]
    push_cast
    ring

lemma log_MINFLOAT : Real.log MINFLOAT = -1022 * Real.log 2 := by
  rw [MINFLOAT, Real.log_zpow]
  norm_num

lemma MINFLOAT_pos : 0 < MINFLOAT := by
  rw [MINFLOAT]
  positivity

/-- Claim C3 counterexample: entropy of the one-hot vector [1,0] is not
exactly 0.0: the zero of the probability mass function is replaced by the
minimum positive float before the logarithm, leaving the strictly
positive value 1022 * MINFLOAT. -/
theorem entropy_one_hot_not_zero :
    entropy_vec [1, 0] 0 = some (1022 * MINFLOAT) ∧ (1022 : ℝ) * MINFLOAT ≠ 0 := by
  have hmin : npmin ([1, 0] : List ℝ) = 0 := by
    simp [npmin]
  have h := entropy_vec_main [1, 0] (by norm_num) (by norm_num) (by norm_num)
    (by rw [hmin]; exact lt_irrefl 0)
  constructor
  · rw [h]
    congr 1
    have hlog2 : Real.log 2 ≠ 0 := (Real.log_pos one_lt_two).ne'
    norm_num [log_MINFLOAT]
    field_simp
    ring
  · exact ne_of_gt (mul_pos (by norm_num) MINFLOAT_pos)

/-- Claim C3 amended: for every one-hot vector — one strictly positive
entry, all other entries zero, length n at least 2 — entropy equals
(n-1) * MINFLOAT * 1022 * log 2 / log n: strictly positive, astronomically
small, but not exactly 0.0, because the zero mass entries are replaced by
the minimum positive float before the logarithm. -/
theorem entropy_one_hot (p q : List ℝ) (a : ℝ) (hapos : 0 < a)
    (hp : ∀ v ∈ p, v = 0) (hq : ∀ v ∈ q, v = 0)
    (hlen : 2 ≤ p.length + 1 + q.length) :
    entropy_vec (p ++ a :: q) 0
      = some ((((p.length + q.length : ℕ) : ℝ) * (MINFLOAT * (1022 * Real.log 2)))
          / Real.log (((p.length + 1 + q.length : ℕ) : ℝ))) ∧
    0 < (((p.length + q.length : ℕ) : ℝ) * (MINFLOAT * (1022 * Real.log 2)))
          / Real.log (((p.length + 1 + q.length : ℕ) : ℝ)) := by
  have hlenx : (p ++ a :: q).length = p.length + 1 + q.length := by
    simp [List.length_append]
    omega
  have hsum : (p ++ a :: q).sum = a := by
    rw [List.sum_append, List.sum_cons, List.sum_eq_zero hp, List.sum_eq_zero hq]
    ring
  have h0 : ¬ (p ++ a :: q).length = 0 := by rw [hlenx]; omega
  have h1 : ¬ (p ++ a :: q).length = 1 := by rw [hlenx]; omega
  have hs : ¬ (p ++ a :: q).sum = 0 := by rw [hsum]; exact ne_of_gt hapos
  have hnn : ∀ v ∈ p ++ a :: q, 0 ≤ v := by
    intro v hv
    rcases List.mem_append.mp hv with hvp | hvc
    · exact le_of_eq (hp v hvp).symm
    · rcases List.mem_cons.mp hvc with rfl | hvq
      · exact le_of_lt hapos
      · exact le_of_eq (hq v hvq).symm
  have hm : ¬ npmin (p ++ a :: q) < 0 := not_lt.mpr (npmin_nonneg _ hnn)
  have hlog2 : 0 < Real.log 2 := Real.log_pos one_lt_two
  have hlogn : 0 < Real.log (((p.length + 1 + q.length : ℕ) : ℝ)) := by
    refine Real.log_pos ?_
    have h2 : (2 : ℕ) ≤ p.length + 1 + q.length := hlen
    calc (1 : ℝ) < 2 := one_lt_two
    _ ≤ ((p.length + 1 + q.length : ℕ) : ℝ) := by exact_mod_cast h2
  have key : ((((p ++ a :: q).map (fun v => v / (p ++ a :: q).sum)).map
      (fun pp => if pp = 0 then MINFLOAT else pp)).map (fun pp => pp * Real.log pp)).sum
      = (((p.length : ℝ) + (q.length : ℝ)) * (MINFLOAT * Real.log MINFLOAT)) := by
    rw [hsum]
    simp only [List.map_append, List.map_cons, List.sum_append, List.sum_cons]
    rw [plog_zero_list p a hp, plog_zero_list q a hq, div_self (ne_of_gt hapos)]
    norm_num
    ring
  constructor
  · rw [entropy_vec_main _ h0 h1 hs hm, key, hlenx]
    congr 1
    rw [log_MINFLOAT]
    push_cast
    ring
  · refine div_pos ?_ hlogn
    have hn1 : 0 < ((p.length + q.length : ℕ) : ℝ) := by
      have : 1 ≤ p.length + q.length := by omega
      exact_mod_cast Nat.lt_of_lt_of_le Nat.zero_lt_one this
    exact mul_pos hn1 (mul_pos MINFLOAT_pos (by positivity))

/-- Claim C3 amended witness: instantiation of entropy_one_hot at the
one-hot vector [0, 1]. -/
theorem entropy_one_hot_witness :
    entropy_vec ([(0 : ℝ)] ++ 1 :: []) 0
      = some ((((([(0 : ℝ)].length + ([] : List ℝ).length : ℕ)) : ℝ)
            * (MINFLOAT * (1022 * Real.log 2)))
          / Real.log ((([(0 : ℝ)].length + 1 + ([] : List ℝ).length : ℕ) : ℝ))) ∧
    0 < ((([(0 : ℝ)].length + ([] : List ℝ).length : ℕ) : ℝ)
            * (MINFLOAT * (1022 * Real.log 2)))
          / Real.log ((([(0 : ℝ)].length + 1 + ([] : List ℝ).length : ℕ) : ℝ)) :=
  entropy_one_hot [0] [] 1 one_pos (by simp) (by simp) (by norm_num)

lemma NpF.add_nan_right {α : Type} [LinearOrderedField α] (v : NpF α) :
    NpF.add v NpF.nan = NpF.nan := by
  cases v <;> rfl

lemma NpF.foldl_add_nan {α : Type} [LinearOrderedField α] (l : List (NpF α)) :
    l.foldl NpF.add NpF.nan = NpF.nan := by
  induction l with
  | nil => rfl
  | cons a t ih =>
    have h : NpF.add NpF.nan a = NpF.nan := by cases a <;> rfl
    simp only [List.foldl_cons, h, ih]

lemma NpF.sum_all_nan {α : Type} [LinearOrderedField α] (l : List (NpF α)) (hne : l ≠ [])
    (hall : ∀ v ∈ l, v = NpF.nan) : NpF.sum l = NpF.nan := by
  match l with
  | [] => exact absurd rfl hne
  | a :: t =>
    have ha : a = NpF.nan := hall a (List.mem_cons_self a t)
    subst ha
    have h1 : NpF.add (NpF.fin (0 : α)) NpF.nan = NpF.nan := rfl
    unfold NpF.sum
    rw [List.foldl_cons, h1]
    exact NpF.foldl_add_nan t

/-- Claim C4 counterexample: on the all-zero 2 by 2 spectrogram the
denominator of the global norm branch, sum(Sxx), is exactly 0 — there is
no guard substituting a positive value — and the computation yields nan
for every ACI entry, the per-bin sums and the total, rather than finite
results. -/
theorem aci_zero_energy_counterexample :
    aciGlobalDenominator [[0, 0], [0, 0]] = 0 ∧
    acousticComplexityIndex [[0, 0], [0, 0]] "global"
      = Except.ok ([[NpF.nan], [NpF.nan]], [NpF.nan, NpF.nan], NpF.nan) ∧
    (NpF.nan : NpF ℚ).isFinite = false := by
  refine ⟨by norm_num [aciGlobalDenominator, npsum2], ?_, rfl⟩
  norm_num [acousticComplexityIndex, aciGlobalDenominator, npsum2, npdiff,
    npdiv, NpF.sum, NpF.add]

/-- Claim C4 amended: acousticComplexityIndex with norm global on a
nonnegative spectrogram of zero total energy does not raise — numpy float
division by the zero sum warns and produces nan — and the call completes
and returns; but the denominator is not guarded, so every returned ACI
value is nan rather than a finite number. -/
theorem aci_zero_total_energy (Sxx : List (List ℚ))
    (hpos : ∀ row ∈ Sxx, ∀ v ∈ row, 0 ≤ v) (hsum : npsum2 Sxx = 0)
    (hrows : Sxx ≠ []) (hcols : ∀ row ∈ Sxx, 2 ≤ row.length) :
    ∃ ACIxx perBin,
      acousticComplexityIndex Sxx "global" = Except.ok (ACIxx, perBin, NpF.nan) ∧
      (∀ r ∈ ACIxx, ∀ v ∈ r, v = NpF.nan) ∧ (∀ v ∈ perBin, v = NpF.nan) := by
  have hrowsum0 : ∀ row ∈ Sxx, row.sum = 0 := by
    have hnn : ∀ s ∈ Sxx.map List.sum, 0 ≤ s := by
      intro s hs
      rcases List.mem_map.mp hs with ⟨row, hrow, rfl⟩
      exact List.sum_nonneg (hpos row hrow)
    intro row hrow
    exact sum_zero_of_nonneg _ hnn hsum (row.sum) (List.mem_map_of_mem List.sum hrow)
  have hentry0 : ∀ row ∈ Sxx, ∀ v ∈ row, v = 0 := fun row hrow =>
    sum_zero_of_nonneg row (hpos row hrow) (hrowsum0 row hrow)
  have hden : aciGlobalDenominator Sxx = 0 := hsum
  have hdiffnan : ∀ row ∈ Sxx, ∀ v ∈ (npdiff row).map
      (fun d => npdiv |d| (aciGlobalDenominator Sxx)), v = NpF.nan := by
    intro row hrow v hv
    rcases List.mem_map.mp hv with ⟨d, hd, rfl⟩
    have hd0 : d = 0 := by
      rcases List.mem_map.mp hd with ⟨pr, hpr, rfl⟩
      have h1 : pr.1 ∈ row := (List.of_mem_zip hpr).1
      have h2 : pr.2 ∈ row.tail := (List.of_mem_zip hpr).2
      have h2m : pr.2 ∈ row := List.mem_of_mem_tail h2
      rw [hentry0 row hrow pr.1 h1, hentry0 row hrow pr.2 h2m]
      ring
    rw [hd0, hden]
    simp [npdiv]
  have hdifflen : ∀ row ∈ Sxx, (npdiff row).map
      (fun d => npdiv |d| (aciGlobalDenominator Sxx)) ≠ [] := by
    intro row hrow hcontra
    have h2 := hcols row hrow
    have hlen0 : (npdiff row).length = 0 := by
      have := congrArg List.length hcontra
      simpa using this
    have hmin : (npdiff row).length = min row.length row.tail.length := by
      simp [npdiff]
    have htail : row.tail.length = row.length - 1 := List.length_tail row
    rw [hmin] at hlen0
    omega
  refine ⟨Sxx.map (fun row => (npdiff row).map (fun d => npdiv |d| (aciGlobalDenominator Sxx))),
    (Sxx.map (fun row => (npdiff row).map (fun d => npdiv |d| (aciGlobalDenominator Sxx)))).map NpF.sum,
    ?_, ?_, ?_⟩
  · have hok : acousticComplexityIndex Sxx "global"
        = Except.ok (Sxx.map (fun row => (npdiff row).map
            (fun d => npdiv |d| (aciGlobalDenominator Sxx))),
          (Sxx.map (fun row => (npdiff row).map
            (fun d => npdiv |d| (aciGlobalDenominator Sxx)))).map NpF.sum,
          NpF.sum ((Sxx.map (fun row => (npdiff row).map
            (fun d => npdiv |d| (aciGlobalDenominator Sxx)))).map NpF.sum)) := by
      simp [acousticComplexityIndex]
    rw [hok]
    have hnanSum : NpF.sum ((Sxx.map (fun row => (npdiff row).map
        (fun d => npdiv |d| (aciGlobalDenominator Sxx)))).map NpF.sum) = NpF.nan := by
      refine NpF.sum_all_nan _ ?_ ?_
      · simp [hrows]
      · intro v hv
        rcases List.mem_map.mp hv with ⟨r, hr, rfl⟩
        rcases List.mem_map.mp hr with ⟨row, hrow, rfl⟩
        exact NpF.sum_all_nan _ (hdifflen row hrow) (hdiffnan row hrow)
    rw [hnanSum]
  · intro r hr v hv
    rcases List.mem_map.mp hr with ⟨row, hrow, rfl⟩
    exact hdiffnan row hrow v hv
  · intro v hv
    rcases List.mem_map.mp hv with ⟨r, hr, rfl⟩
    rcases List.mem_map.mp hr with ⟨row, hrow, rfl⟩
    exact NpF.sum_all_nan _ (hdifflen row hrow) (hdiffnan row hrow)

/-- Claim C4 amended witness: instantiation of aci_zero_total_energy at
the all-zero 2 by 2 spectrogram. -/
theorem aci_zero_total_energy_witness :
    ∃ ACIxx perBin,
      acousticComplexityIndex ([[0, 0], [0, 0]] : List (List ℚ)) "global"
        = Except.ok (ACIxx, perBin, NpF.nan) ∧
      (∀ r ∈ ACIxx, ∀ v ∈ r, v = NpF.nan) ∧ (∀ v ∈ perBin, v = NpF.nan) :=
  aci_zero_total_energy [[0, 0], [0, 0]] (by decide) (by norm_num [npsum2])
    (by decide) (by decide)

lemma getZ_natCast (l : List ℕ) (i : ℕ) : getZ l (i : ℤ) = l.getD i 0 := by
  simp [getZ]

lemma map_range_getD {β γ : Type} (l : List β) (d : β) (f : β → γ) :
    (List.range l.length).map (fun i => f (l.getD i d)) = l.map f := by
  induction l with
  | nil => rfl
  | cons a t ih =>
    rw [List.length_cons, List.range_succ_eq_map, List.map_cons, List.map_map]
    congr 1

lemma range_one_eq : List.range 1 = [0] := rfl

lemma binary_erosion_one (l : List ℕ) :
    binary_erosion l 1 = l.map (fun v => if 0 < v then 1 else 0) := by
  have hpt : ∀ i : ℕ,
      (if (List.range 1).all (fun (j : ℕ) => decide (0 < getZ l ((i : ℤ) + (j : ℤ) - ((1 : ℕ) : ℤ) / 2)))
        then (1 : ℕ) else 0) = (fun v => if 0 < v then (1 : ℕ) else 0) (l.getD i 0) := by
    intro i
    rw [range_one_eq]
    have hidx : ((i : ℤ) + ((0 : ℕ) : ℤ) - ((1 : ℕ) : ℤ) / 2) = (i : ℤ) := by norm_num
    simp only [List.all_cons, List.all_nil, Bool.and_true, hidx, getZ_natCast]
    by_cases h : 0 < l.getD i 0 <;> simp [h]
  unfold binary_erosion
  exact (List.map_congr_left (fun i _ => hpt i)).trans
    (map_range_getD l 0 (fun v => if 0 < v then 1 else 0))

lemma binary_dilation_one (l : List ℕ) :
    binary_dilation l 1 = l.map (fun v => if 0 < v then 1 else 0) := by
  have hpt : ∀ i : ℕ,
      (if (List.range 1).any (fun (j : ℕ) => decide (0 < getZ l ((i : ℤ) + (j : ℤ) - ((1 : ℕ) : ℤ) / 2)))
        then (1 : ℕ) else 0) = (fun v => if 0 < v then (1 : ℕ) else 0) (l.getD i 0) := by
    intro i
    rw [range_one_eq]
    have hidx : ((i : ℤ) + ((0 : ℕ) : ℤ) - ((1 : ℕ) : ℤ) / 2) = (i : ℤ) := by norm_num
    simp only [List.any_cons, List.any_nil, Bool.or_false, hidx, getZ_natCast]
    by_cases h : 0 < l.getD i 0 <;> simp [h]
  unfold binary_dilation
  exact (List.map_congr_left (fun i _ => hpt i)).trans
    (map_range_getD l 0 (fun v => if 0 < v then 1 else 0))

lemma opening_one (l : List ℕ) (h01 : ∀ v ∈ l, v = 0 ∨ v = 1) :
    binary_dilation (binary_erosion l 1) 1 = l := by
  rw [binary_erosion_one, binary_dilation_one, List.map_map]
  refine (List.map_congr_left ?_).trans (List.map_id l)
  intro v hv
  rcases h01 v hv with rfl | rfl <;> rfl

lemma rle_replicate_zero (c : ℕ) :
    rle (List.replicate c (0 : ℕ)) = if c = 0 then [] else [(c, 0)] := by
  induction c with
  | zero => rfl
  | succ c ih =>
    rw [List.replicate_succ]
    simp only [rle, ih]
    by_cases hc : c = 0
    · subst hc; rfl
    · simp [hc]

lemma rle_ones_zeros (L c : ℕ) (hL : 1 ≤ L) :
    rle (List.replicate L 1 ++ List.replicate c (0 : ℕ))
      = (L, 1) :: (if c = 0 then [] else [(c, 0)]) := by
  induction L with
  | zero => omega
  | succ L ih =>
    rw [List.replicate_succ, List.cons_append]
    by_cases hLz : L = 0
    · subst hLz
      simp only [List.replicate_zero, List.nil_append, rle, rle_replicate_zero]
      by_cases hc : c = 0
      · subst hc; rfl
      · simp [hc]
    · have hL1 : 1 ≤ L := Nat.one_le_iff_ne_zero.mpr hLz
      simp [rle, ih hL1]

lemma rle_zero_one_zero (a L c : ℕ) (hL : 1 ≤ L) :
    rle (List.replicate a 0 ++ List.replicate L 1 ++ List.replicate c (0 : ℕ))
      = (if a = 0 then [] else [(a, (0 : ℕ))]) ++ (L, 1) :: (if c = 0 then [] else [(c, 0)]) := by
  induction a with
  | zero =>
    simp only [List.replicate_zero, List.nil_append, if_pos rfl]
    exact rle_ones_zeros L c hL
  | succ a ih =>
    rw [List.replicate_succ, List.cons_append, List.cons_append]
    have hass : List.replicate a 0 ++ List.replicate L 1 ++ List.replicate c (0 : ℕ)
        = List.replicate a 0 ++ (List.replicate L 1 ++ List.replicate c (0 : ℕ)) :=
      List.append_assoc _ _ _
    by_cases ha : a = 0
    · subst ha
      simp only [List.replicate_zero, List.nil_append] at ih ⊢
      simp only [rle, rle_ones_zeros L c hL]
      norm_num
    · simp only [rle, ih]
      simp [ha]

/-- Claim C7: on a 1-d vector made of one maximal run of length L of
samples at or above the threshold surrounded by samples strictly below it,
acoustic_events with rejectDuration 0 reports EVNsum = L*dt and
EVNcount = 1/duration with duration = (n-1)*dt. -/
theorem acoustic_events_single_run (p run q : List ℚ) (dt th : ℚ) (hdt : 0 < dt)
    (hp : ∀ v ∈ p, v < th) (hq : ∀ v ∈ q, v < th) (hrun : ∀ v ∈ run, th ≤ v)
    (hne : run ≠ []) :
    (acoustic_events (p ++ run ++ q) dt th (some 0)).1 = (run.length : ℚ) * dt ∧
    (acoustic_events (p ++ run ++ q) dt th (some 0)).2.2.1
      = 1 / ((((p ++ run ++ q).length : ℚ) - 1) * dt) := by
  have hL1 : 1 ≤ run.length := List.length_pos.mpr hne
  have hEVN0 : (p ++ run ++ q).map (fun v => if th ≤ v then (1 : ℕ) else 0)
      = List.replicate p.length 0 ++ List.replicate run.length 1
        ++ List.replicate q.length 0 := by
    rw [List.map_append, List.map_append,
      map_eq_replicate_of_mem p _ 0 (fun v hv => if_neg (not_le.mpr (hp v hv))),
      map_eq_replicate_of_mem run _ 1 (fun v hv => if_pos (hrun v hv)),
      map_eq_replicate_of_mem q _ 0 (fun v hv => if_neg (not_le.mpr (hq v hv)))]
  have hrl : (pyround ((0 : ℚ) / dt)).toNat = 0 := by
    norm_num [pyround]
  have h01 : ∀ v ∈ (p ++ run ++ q).map (fun v => if th ≤ v then (1 : ℕ) else 0),
      v = 0 ∨ v = 1 := by
    intro v hv
    rcases List.mem_map.mp hv with ⟨w, hw, rfl⟩
    by_cases h : th ≤ w
    · right; exact if_pos h
    · left; exact if_neg h
  have hopen : binary_dilation (binary_erosion
        ((p ++ run ++ q).map (fun v => if th ≤ v then (1 : ℕ) else 0))
        ((pyround ((0 : ℚ) / dt)).toNat + 1)) ((pyround ((0 : ℚ) / dt)).toNat + 1)
      = (p ++ run ++ q).map (fun v => if th ≤ v then (1 : ℕ) else 0) := by
    rw [hrl]
    exact opening_one _ h01
  have hruns : rle ((p ++ run ++ q).map (fun v => if th ≤ v then (1 : ℕ) else 0))
      = (if p.length = 0 then [] else [(p.length, (0 : ℕ))]) ++ (run.length, 1)
        :: (if q.length = 0 then [] else [(q.length, 0)]) := by
    rw [hEVN0]
    exact rle_zero_one_zero p.length run.length q.length hL1
  have hfilter : (((rle ((p ++ run ++ q).map (fun v => if th ≤ v then (1 : ℕ) else 0))).filter
      (fun r => decide (r.2 = 1))).map (fun r => r.1)).sum = run.length := by
    rw [hruns]
    by_cases ha : p.length = 0 <;> by_cases hc : q.length = 0 <;> simp [ha, hc]
  have hsnd : ((rle ((p ++ run ++ q).map (fun v => if th ≤ v then (1 : ℕ) else 0))).map
      (fun r => r.2)).sum = 1 := by
    rw [hruns]
    by_cases ha : p.length = 0 <;> by_cases hc : q.length = 0 <;> simp [ha, hc]
  constructor
  · have h1 : (acoustic_events (p ++ run ++ q) dt th (some 0)).1
        = ((run.length : ℕ) : ℚ) * dt := by
      simp only [acoustic_events]
      rw [hopen, hfilter]
    simpa using h1
  · have h2 : (acoustic_events (p ++ run ++ q) dt th (some 0)).2.2.1
        = (((1 : ℕ) : ℚ)) / ((((p ++ run ++ q).length : ℚ)) - 1) / dt := by
      simp only [acoustic_events]
      rw [hopen, hsnd]
      field_simp
    rw [h2]
    field_simp

/-- Claim C7 witness: instantiation of acoustic_events_single_run at the
vector [0, 10, 10, 0] with threshold 6, dt = 1 and rejectDuration 0. -/
theorem acoustic_events_single_run_witness :
    (acoustic_events (([0] : List ℚ) ++ [10, 10] ++ [0]) 1 6 (some 0)).1
      = (([10, 10] : List ℚ).length : ℚ) * 1 ∧
    (acoustic_events (([0] : List ℚ) ++ [10, 10] ++ [0]) 1 6 (some 0)).2.2.1
      = 1 / ((((([0] : List ℚ) ++ [10, 10] ++ [0]).length : ℚ) - 1) * 1) :=
  acoustic_events_single_run [0] [10, 10] [0] 1 6 (by norm_num)
    (by intro v hv; rcases List.mem_singleton.mp hv with rfl; norm_num)
    (by intro v hv; rcases List.mem_singleton.mp hv with rfl; norm_num)
    (by intro v hv
        rcases List.mem_cons.mp hv with rfl | hv2
        · norm_num
        · rcases List.mem_singleton.mp hv2 with rfl; norm_num)
    (by simp)

lemma maskSelect_cons {β : Type} (b : Bool) (m : List Bool) (a : β) (l : List β) :
    maskSelect (b :: m) (a :: l) = if b then a :: maskSelect m l else maskSelect m l := by
  by_cases hb : b <;> simp [maskSelect, List.filterMap_cons, hb]

lemma maskSelect_map_range {β : Type} (d : β) (g : ℕ → Bool) (l : List β) :
    maskSelect ((List.range l.length).map g) l
      = ((List.range l.length).filter g).map (fun i => l.getD i d) := by
  induction l generalizing g with
  | nil => rfl
  | cons a t ih =>
    simp only [List.length_cons, List.range_succ_eq_map, List.map_cons, List.map_map,
      maskSelect_cons, List.filter_cons, List.filter_map, List.getD_cons_zero,
      List.getD_cons_succ, Function.comp]
    by_cases hg : g 0
    · simp only [hg, if_true, List.map_cons, List.map_map, List.getD_cons_succ]
      rw [ih]
      simp [Function.comp, List.getD_cons_zero, List.getD_cons_succ]
    · simp only [hg, if_false, Bool.false_eq_true, List.map_map, List.getD_cons_succ]
      rw [ih]
      simp [Function.comp, List.getD_cons_succ]

lemma range_filter_eq (n k : ℕ) (hk : k < n) :
    (List.range n).filter (fun i => decide (i = k)) = [k] := by
  induction n with
  | zero => omega
  | succ m ih =>
    rw [List.range_succ, List.filter_append]
    by_cases h : k < m
    · rw [ih h]
      have hm : ([m].filter (fun i => decide (i = k))) = [] := by
        have : m ≠ k := by omega
        simp [this]
      rw [hm, List.append_nil]
    · have hk2 : k = m := by omega
      subst hk2
      have h1 : (List.range k).filter (fun i => decide (i = k)) = [] := by
        rw [List.filter_eq_nil_iff]
        intro a ha
        have := List.mem_range.mp ha
        simp only [decide_eq_true_eq]
        omega
      rw [h1, List.nil_append]
      simp

lemma getD_map_range {γ : Type} (n k : ℕ) (f : ℕ → γ) (d : γ) (hk : k < n) :
    ((List.range n).map f).getD k d = f k := by
  have hlen : k < ((List.range n).map f).length := by
    simpa using hk
  rw [List.getD_eq_getElem _ _ hlen, List.getElem_map, List.getElem_range]

lemma nparange_uniform (N : ℕ) (df : ℚ) (hdf : 0 < df) :
    nparange 0 ((N : ℚ) * df) df = (List.range N).map (fun (k : ℕ) => (k : ℚ) * df) := by
  unfold nparange
  have h1 : (((N : ℚ) * df - 0) / df) = (N : ℚ) := by
    field_simp
  rw [h1, Int.ceil_natCast, Int.toNat_natCast]
  exact List.map_congr_left (fun k _ => by ring)

lemma npmean_axis0_single (r : List ℚ) : npmean_axis0 [r] = r := by
  unfold npmean_axis0 transposeL
  have hcols : ncols [r] = r.length := rfl
  rw [hcols, List.map_map]
  have hpt : ∀ j, (npmean ∘ fun j => [r].map (fun rr => rr.getD j 0)) j = r.getD j 0 := by
    intro j
    simp [npmean]
  exact ((List.map_congr_left (fun j _ => hpt j)).trans (map_range_getD r 0 id)).trans
    (List.map_id r)

lemma intoBins_uniform (M : ℕ) (df : ℚ) (X : List (List ℚ)) (hdf : 0 < df)
    (hM : 1 ≤ M) (hlen : X.length = M + 1) :
    intoBins X ((List.range (M + 1)).map (fun (k : ℕ) => (k : ℚ) * df)) df 0 (some 0)
        (some ((M : ℚ) * df))
      = Except.ok ((List.range M).map (fun k => getRow X k),
          (List.range M).map (fun (k : ℕ) => (k : ℚ) * df)) := by
  have h0 : ((List.range (M + 1)).map (fun (k : ℕ) => (k : ℚ) * df)).getD 0 0 = 0 := by
    rw [getD_map_range _ _ _ _ (by omega)]
    norm_num
  have h1 : ((List.range (M + 1)).map (fun (k : ℕ) => (k : ℚ) * df)).getD 1 0 = df := by
    rw [getD_map_range _ _ _ _ (by omega)]
    norm_num
  have hguard : ¬ df < ((List.range (M + 1)).map (fun (k : ℕ) => (k : ℚ) * df)).getD 1 0
      - ((List.range (M + 1)).map (fun (k : ℕ) => (k : ℚ) * df)).getD 0 0 := by
    rw [h0, h1]
    simp
  have hsplit1 : (List.range (M + 1)).map (fun (k : ℕ) => (k : ℚ) * df)
      = (List.range M).map (fun (k : ℕ) => (k : ℚ) * df) ++ [(M : ℚ) * df] := by
    rw [List.range_succ, List.map_append, List.map_cons, List.map_nil]
  have hsplit2 : ((List.range (M + 1)).map (fun (k : ℕ) => (k : ℚ) * df)).tail
      = (List.range M).map (fun (k : ℕ) => ((k + 1 : ℕ) : ℚ) * df) := by
    rw [List.range_succ_eq_map, List.map_cons, List.tail_cons, List.map_map]
    rfl
  have hbmax : (M : ℚ) * df + df = ((M + 1 : ℕ) : ℚ) * df := by
    push_cast
    ring
  have hedges : ((List.range (M + 1)).map (fun (k : ℕ) => (k : ℚ) * df)).zip
        (((List.range (M + 1)).map (fun (k : ℕ) => (k : ℚ) * df)).tail)
      = (List.range M).map (fun (k : ℕ) => ((k : ℚ) * df, ((k + 1 : ℕ) : ℚ) * df)) := by
    rw [hsplit2]
    nth_rewrite 1 [hsplit1]
    rw [show (List.range M).map (fun (k : ℕ) => ((k + 1 : ℕ) : ℚ) * df)
        = (List.range M).map (fun (k : ℕ) => ((k + 1 : ℕ) : ℚ) * df) ++ []
      from (List.append_nil _).symm]
    rw [List.zip_append (by simp), List.zip_nil_right, List.append_nil, List.zip_map']
  have hmask : ∀ k, k < M →
      ((List.range (M + 1)).map (fun (k : ℕ) => (k : ℚ) * df)).map
          (fun a => decide ((k : ℚ) * df ≤ a) && decide (a < ((k + 1 : ℕ) : ℚ) * df))
        = (List.range (M + 1)).map (fun m => decide (m = k)) := by
    intro k _
    rw [List.map_map]
    refine List.map_congr_left ?_
    intro m _
    show (decide ((k : ℚ) * df ≤ (m : ℚ) * df) && decide ((m : ℚ) * df < ((k + 1 : ℕ) : ℚ) * df))
      = decide (m = k)
    rw [← Bool.decide_and]
    refine decide_eq_decide.mpr ?_
    rw [mul_le_mul_right hdf, mul_lt_mul_right hdf, Nat.cast_le, Nat.cast_lt]
    omega
  have hsel : ∀ k, k < M →
      maskSelect ((List.range (M + 1)).map (fun m => decide (m = k))) X = [getRow X k] := by
    intro k hk
    have hX := hlen
    rw [← hX]
    rw [maskSelect_map_range ([] : List ℚ)]
    rw [hX, range_filter_eq (M + 1) k (by omega), List.map_cons, List.map_nil]
    rfl
  have hcount : ∀ k, k < M →
      ((((List.range (M + 1)).map (fun (k : ℕ) => (k : ℚ) * df)).map
          (fun a => decide ((k : ℚ) * df ≤ a) && decide (a < ((k + 1 : ℕ) : ℚ) * df))).filter
        id).length = 1 := by
    intro k hk
    rw [hmask k hk, length_filter_id_map, range_filter_eq (M + 1) k (by omega)]
    rfl
  have hxbin2 : ((List.range M).map (fun (k : ℕ) => ((k : ℚ) * df, ((k + 1 : ℕ) : ℚ) * df))).map
        (fun e => npmean_axis0 (maskSelect
          (((List.range (M + 1)).map (fun (k : ℕ) => (k : ℚ) * df)).map
            (fun a => decide (e.1 ≤ a) && decide (a < e.2))) X))
      = (List.range M).map (fun k => getRow X k) := by
    rw [List.map_map]
    refine List.map_congr_left ?_
    intro k hk
    have hkM := List.mem_range.mp hk
    show npmean_axis0 (maskSelect
        (((List.range (M + 1)).map (fun (k : ℕ) => (k : ℚ) * df)).map
          (fun a => decide ((k : ℚ) * df ≤ a) && decide (a < ((k + 1 : ℕ) : ℚ) * df))) X)
      = getRow X k
    rw [hmask k hkM, hsel k hkM, npmean_axis0_single]
  have hs2 : ((List.range M).map (fun (k : ℕ) => ((k : ℚ) * df, ((k + 1 : ℕ) : ℚ) * df))).map
        (fun e => ((((List.range (M + 1)).map (fun (k : ℕ) => (k : ℚ) * df)).map
          (fun a => decide (e.1 ≤ a) && decide (a < e.2))).filter id).length)
      = List.replicate M 1 := by
    rw [List.map_map]
    have := map_eq_replicate_of_mem (List.range M)
      ((fun e => ((((List.range (M + 1)).map (fun (k : ℕ) => (k : ℚ) * df)).map
          (fun a => decide (e.1 ≤ a) && decide (a < e.2))).filter id).length) ∘
        (fun (k : ℕ) => ((k : ℚ) * df, ((k + 1 : ℕ) : ℚ) * df))) 1
      (fun k hk => hcount k (List.mem_range.mp hk))
    rw [this, List.length_range]
  have hsbar : npmean ((List.replicate M (1 : ℕ)).map (fun (c : ℕ) => (c : ℚ))) = 1 := by
    rw [List.map_replicate]
    unfold npmean
    rw [List.sum_replicate, List.length_replicate]
    have hMne : (M : ℚ) ≠ 0 := by
      exact_mod_cast Nat.one_le_iff_ne_zero.mp hM
    push_cast
    field_simp
  unfold intoBins
  rw [if_neg hguard]
  simp only [Option.getD_some, hbmax, nparange_uniform (M + 1) df hdf, hedges,
    eq_self_iff_true, if_true]
  rw [hxbin2, hs2, hsbar]
  have hscale : ((List.range M).map (fun k => getRow X k)).map
      (fun row => row.map (fun v => v * 1)) = (List.range M).map (fun k => getRow X k) := by
    refine (List.map_congr_left ?_).trans (List.map_id _)
    intro row _
    show row.map (fun v => v * 1) = row
    refine (List.map_congr_left ?_).trans (List.map_id _)
    intro v _
    exact mul_one v
  rw [hscale]
  have hdrop : ((List.range (M + 1)).map (fun (k : ℕ) => (k : ℚ) * df)).dropLast
      = (List.range M).map (fun (k : ℕ) => (k : ℚ) * df) := by
    rw [hsplit1, List.dropLast_concat]
  rw [hdrop]

lemma maskSelect_map_range_len {β : Type} (d : β) (g : ℕ → Bool) (l : List β) (n : ℕ)
    (h : l.length = n) :
    maskSelect ((List.range n).map g) l = ((List.range n).filter g).map (fun i => l.getD i d) := by
  subst h
  exact maskSelect_map_range d g l

lemma getRow_map_sq (X : List (List ℚ)) (k : ℕ) :
    getRow (X.map (fun row => row.map (fun v => v ^ 2))) k
      = (getRow X k).map (fun v => v ^ 2) := by
  unfold getRow
  have := List.getD_map X [] (fun row => row.map (fun v => v ^ 2)) (n := k)
  simpa using this

lemma energy_uniform (M : ℕ) (df : ℚ) (PSD : List (List ℚ)) (flim : ℚ × ℚ)
    (hdf : 0 < df) (hM : 1 ≤ M) (hlen : PSD.length = M + 1) :
    _energy_per_freqbin PSD ((List.range (M + 1)).map (fun (k : ℕ) => (k : ℚ) * df)) flim df
      = Except.ok ((((List.range M).filter
          (fun (k : ℕ) => decide (flim.1 ≤ (k : ℚ) * df) && decide ((k : ℚ) * df ≤ flim.2))).map
          (fun k => (getRow PSD k).sum)).sum) := by
  unfold _energy_per_freqbin
  have hlast : ((List.range (M + 1)).map (fun (k : ℕ) => (k : ℚ) * df)).getD
      (((List.range (M + 1)).map (fun (k : ℕ) => (k : ℚ) * df)).length - 1) 0
      = (M : ℚ) * df := by
    have hl : ((List.range (M + 1)).map (fun (k : ℕ) => (k : ℚ) * df)).length = M + 1 := by
      simp
    rw [hl, Nat.add_sub_cancel, getD_map_range _ _ _ _ (by omega)]
  rw [hlast, intoBins_uniform M df PSD hdf hM hlen]
  have hibw : index_bw ((List.range M).map (fun (k : ℕ) => (k : ℚ) * df)) flim
      = (List.range M).map (fun (k : ℕ) =>
          decide (flim.1 ≤ (k : ℚ) * df) && decide ((k : ℚ) * df ≤ flim.2)) := by
    unfold index_bw
    rw [List.map_map]
    rfl
  show Except.ok (npsum2 (maskSelect
      (index_bw ((List.range M).map (fun (k : ℕ) => (k : ℚ) * df)) flim)
      ((List.range M).map (fun k => getRow PSD k)))) = _
  rw [hibw, maskSelect_map_range_len ([] : List ℚ) _ _ M (by simp)]
  unfold npsum2
  rw [List.map_map]
  refine congrArg Except.ok (congrArg List.sum (List.map_congr_left ?_))
  intro i hi
  have hiM : i < M := List.mem_range.mp (List.mem_of_mem_filter hi)
  show (((List.range M).map (fun k => getRow PSD k)).getD i []).sum = (getRow PSD i).sum
  rw [getD_map_range M i _ [] hiM]

/-- Claim C6: soundscapeIndex on a spectrogram over a uniform frequency
grid whose anthropophony-band rows are all zero while some biophony-band
row carries nonzero amplitude returns NDSI = 1.0 exactly and ratioBA
equal to the numpy infinite sentinel inf (the result of dividing the
positive biophony energy by the zero anthropophony energy). The grid has
M+1 rows at frequencies 0, df, 2 df, ...; rows at or beyond the last bin
edge are excluded by the re-binning, hence the bound k < M for the
biophony witness row. -/
theorem soundscape_all_bio (M : ℕ) (df : ℚ) (Sxx : List (List ℚ)) (flimB flimA : ℚ × ℚ)
    (hdf : 0 < df) (hM : 1 ≤ M) (hlen : Sxx.length = M + 1)
    (hanthro : ∀ k, k < M + 1 → flimA.1 ≤ (k : ℚ) * df → (k : ℚ) * df ≤ flimA.2 →
      ∀ v ∈ getRow Sxx k, v = 0)
    (hbio : ∃ k, k < M ∧ flimB.1 ≤ (k : ℚ) * df ∧ (k : ℚ) * df ≤ flimB.2 ∧
      ∃ v ∈ getRow Sxx k, v ≠ 0) :
    ∃ b : ℚ, 0 < b ∧
      soundscapeIndex Sxx ((List.range (M + 1)).map (fun (k : ℕ) => (k : ℚ) * df))
          flimB flimA none
        = Except.ok (NpF.fin 1, NpF.inf, 0, b) := by
  have hPSDlen : (Sxx.map (fun row => row.map (fun v => v ^ 2))).length = M + 1 := by
    rw [List.length_map, hlen]
  have hB := energy_uniform M df (Sxx.map (fun row => row.map (fun v => v ^ 2))) flimB
    hdf hM hPSDlen
  have hA := energy_uniform M df (Sxx.map (fun row => row.map (fun v => v ^ 2))) flimA
    hdf hM hPSDlen
  have hstep : (none : Option ℚ).getD
      ((((List.range (M + 1)).map (fun (k : ℕ) => (k : ℚ) * df)).getD 1 0)
        - (((List.range (M + 1)).map (fun (k : ℕ) => (k : ℚ) * df)).getD 0 0)) = df := by
    rw [Option.getD_none, getD_map_range _ _ _ _ (by omega), getD_map_range _ _ _ _ (by omega)]
    push_cast
    ring
  have hEA0 : (((List.range M).filter
      (fun (k : ℕ) => decide (flimA.1 ≤ (k : ℚ) * df) && decide ((k : ℚ) * df ≤ flimA.2))).map
      (fun k => (getRow (Sxx.map (fun row => row.map (fun v => v ^ 2))) k).sum)).sum = 0 := by
    refine List.sum_eq_zero ?_
    intro x hx
    rcases List.mem_map.mp hx with ⟨k, hk, rfl⟩
    rcases List.mem_filter.mp hk with ⟨hkr, hkp⟩
    have hkM : k < M := List.mem_range.mp hkr
    rw [Bool.and_eq_true] at hkp
    obtain ⟨hp1, hp2⟩ := hkp
    have hb1 : flimA.1 ≤ (k : ℚ) * df := of_decide_eq_true hp1
    have hb2 : (k : ℚ) * df ≤ flimA.2 := of_decide_eq_true hp2
    have hrow0 : ∀ v ∈ getRow Sxx k, v = 0 := hanthro k (by omega) hb1 hb2
    rw [getRow_map_sq]
    refine List.sum_eq_zero ?_
    intro y hy
    rcases List.mem_map.mp hy with ⟨w, hw, rfl⟩
    rw [hrow0 w hw]
    ring
  have hEBpos : 0 < (((List.range M).filter
      (fun (k : ℕ) => decide (flimB.1 ≤ (k : ℚ) * df) && decide ((k : ℚ) * df ≤ flimB.2))).map
      (fun k => (getRow (Sxx.map (fun row => row.map (fun v => v ^ 2))) k).sum)).sum := by
    obtain ⟨k, hkM, hb1, hb2, v, hv, hvne⟩ := hbio
    have hknn : ∀ x ∈ ((List.range M).filter
        (fun (k : ℕ) => decide (flimB.1 ≤ (k : ℚ) * df) && decide ((k : ℚ) * df ≤ flimB.2))).map
        (fun k => (getRow (Sxx.map (fun row => row.map (fun v => v ^ 2))) k).sum), 0 ≤ x := by
      intro x hx
      rcases List.mem_map.mp hx with ⟨j, _, rfl⟩
      rw [getRow_map_sq]
      refine List.sum_nonneg ?_
      intro y hy
      rcases List.mem_map.mp hy with ⟨w, _, rfl⟩
      exact sq_nonneg w
    have hkmem : k ∈ (List.range M).filter
        (fun (k : ℕ) => decide (flimB.1 ≤ (k : ℚ) * df) && decide ((k : ℚ) * df ≤ flimB.2)) := by
      refine List.mem_filter.mpr ⟨List.mem_range.mpr hkM, ?_⟩
      rw [Bool.and_eq_true]
      exact ⟨decide_eq_true hb1, decide_eq_true hb2⟩
    have hterm : 0 < (getRow (Sxx.map (fun row => row.map (fun v => v ^ 2))) k).sum := by
      rw [getRow_map_sq]
      refine sum_pos_of_mem _ ?_ (v ^ 2) (List.mem_map_of_mem _ hv) ?_
      · intro y hy
        rcases List.mem_map.mp hy with ⟨w, _, rfl⟩
        exact sq_nonneg w
      · exact lt_of_le_of_ne (sq_nonneg v) (Ne.symm (pow_ne_zero 2 hvne))
    exact lt_of_lt_of_le hterm (List.single_le_sum hknn _
      (List.mem_map_of_mem _ hkmem))
  refine ⟨_, hEBpos, ?_⟩
  simp only [soundscapeIndex]
  rw [hstep, hB, hA]
  show Except.ok (npdiv _ _, npdiv _ _, _, _) = _
  rw [hEA0]
  have h1 : npdiv ((((List.range M).filter
      (fun (k : ℕ) => decide (flimB.1 ≤ (k : ℚ) * df) && decide ((k : ℚ) * df ≤ flimB.2))).map
      (fun k => (getRow (Sxx.map (fun row => row.map (fun v => v ^ 2))) k).sum)).sum - 0)
      ((((List.range M).filter
      (fun (k : ℕ) => decide (flimB.1 ≤ (k : ℚ) * df) && decide ((k : ℚ) * df ≤ flimB.2))).map
      (fun k => (getRow (Sxx.map (fun row => row.map (fun v => v ^ 2))) k).sum)).sum + 0)
      = NpF.fin 1 := by
    rw [sub_zero, add_zero]
    unfold npdiv
    rw [if_pos (ne_of_gt hEBpos), div_self (ne_of_gt hEBpos)]
  have h2 : npdiv ((((List.range M).filter
      (fun (k : ℕ) => decide (flimB.1 ≤ (k : ℚ) * df) && decide ((k : ℚ) * df ≤ flimB.2))).map
      (fun k => (getRow (Sxx.map (fun row => row.map (fun v => v ^ 2))) k).sum)).sum) (0 : ℚ)
      = NpF.inf := by
    unfold npdiv
    rw [if_neg (by simp), if_pos hEBpos]
  rw [h1, h2]

/-- Claim C6 witness: instantiation of soundscape_all_bio at a 4-row
spectrogram on the grid 0, 1000, 2000, 3000 Hz with the default biophony
band (1000, 10000) and anthropophony band (0, 1000): all energy sits in
the row at 2000 Hz. -/
theorem soundscape_all_bio_witness :
    ∃ b : ℚ, 0 < b ∧
      soundscapeIndex [[0, 0], [0, 0], [1, 0], [5, 5]]
          ((List.range (3 + 1)).map (fun (k : ℕ) => (k : ℚ) * 1000))
          (1000, 10000) (0, 1000) none
        = Except.ok (NpF.fin 1, NpF.inf, 0, b) :=
  soundscape_all_bio 3 1000 [[0, 0], [0, 0], [1, 0], [5, 5]] (1000, 10000) (0, 1000)
    (by norm_num) (by norm_num) (by rfl)
    (by intro k hk h1 h2
        interval_cases k
        · simp [getRow]
        · simp [getRow]
        · norm_num at h2
        · norm_num at h2)
    ⟨2, by norm_num, by norm_num, by norm_num, 1, by simp [getRow], by norm_num⟩

lemma maskSelect_all_true {β : Type} (n : ℕ) (l : List β) :
    maskSelect (List.replicate n true) l = l.take n := by
  induction n generalizing l with
  | zero => rfl
  | succ m ih =>
    cases l with
    | nil => simp [maskSelect]
    | cons a t =>
      rw [List.replicate_succ, maskSelect_cons, if_pos rfl, ih t, List.take_succ_cons]

lemma entropy_vec_ne_none (l : List ℝ) (h : l ≠ []) : entropy_vec l 0 ≠ none := by
  have h0 : ¬ l.length = 0 := by simpa [List.length_eq_zero] using h
  by_cases h1 : l.length = 1
  · simp [entropy_vec, h0, h1]
  · by_cases hs : l.sum = 0
    · simp [entropy_vec, h0, h1, hs]
    · simp [entropy_vec, h0, h1, hs]

lemma entropy_hist_ne_none (vals : List ℝ) (N : ℕ) (lo hi : ℝ) (hN : N ≠ 0) :
    entropy_vec ((nphistogram vals N lo hi).map
      (fun c => c / (nphistogram vals N lo hi).sum)) 0 ≠ none := by
  refine entropy_vec_ne_none _ ?_
  intro hcontra
  rw [List.map_eq_nil_iff] at hcontra
  have hlen : (nphistogram vals N lo hi).length = N := by
    simp [nphistogram]
  rw [hcontra] at hlen
  exact hN hlen.symm

/-- Claim C5 counterexample: with a scalar flim, spectral_entropy does not
raise any error: on a concrete spectrogram the call prints a warning and
falls through the bare return, producing the Python None sentinel through
a normal return — Except.ok none, an ok result, not an InvalidArgument
error. -/
theorem spectral_entropy_scalar_no_raise :
    spectral_entropy [[1, 2], [3, 4]] [0, 100] (FlimArg.scalar 5) = Except.ok none ∧
    (spectral_entropy [[1, 2], [3, 4]] [0, 100] (FlimArg.scalar 5)).isOk = true :=
  ⟨rfl, rfl⟩

/-- Claim C5 amended: a scalar flim makes spectral_entropy return the None
sentinel through a normal return after printing a warning — no
InvalidArgument exception is raised and the call is aborted only in the
sense of the early return; a None flim defaults to the full frequency
range (min fn, max fn), behaving exactly like the explicit tuple, and the
call succeeds with the six spectral statistics. -/
theorem spectral_entropy_flim (X : List (List ℝ)) (fn : List ℝ) (c : ℝ)
    (hX : X ≠ []) (hfn : fn.length = X.length) :
    spectral_entropy X fn (FlimArg.scalar c) = Except.ok none ∧
    spectral_entropy X fn FlimArg.noneArg
      = spectral_entropy X fn (FlimArg.tuple (npmin fn) (npmax fn)) ∧
    ∃ r, spectral_entropy X fn FlimArg.noneArg = Except.ok (some r) := by
  have hfn0 : fn.length ≠ 0 := by
    rw [hfn]
    simpa [List.length_eq_zero] using hX
  have hiBAND : index_bw fn (npmin fn, npmax fn) = List.replicate fn.length true := by
    unfold index_bw
    refine map_eq_replicate_of_mem fn _ true ?_
    intro f hf
    rw [decide_eq_true (npmin_le fn f hf), decide_eq_true (npmax_ge fn f hf)]
    rfl
  have hXsel : maskSelect (index_bw fn (npmin fn, npmax fn)) X = X := by
    rw [hiBAND, maskSelect_all_true, hfn, List.take_length]
  refine ⟨rfl, rfl, ?_⟩
  have hne1 : X.map npmean ≠ [] := by simpa [List.map_eq_nil_iff] using hX
  have hne2 : X.map npvar ≠ [] := by simpa [List.map_eq_nil_iff] using hX
  have hne3 : X.map (fun row => npvar row / npmax row) ≠ [] := by
    simpa [List.map_eq_nil_iff] using hX
  rcases Option.ne_none_iff_exists'.mp (entropy_vec_ne_none (X.map npmean) hne1)
    with ⟨e1, he1⟩
  rcases Option.ne_none_iff_exists'.mp (entropy_vec_ne_none (X.map npvar) hne2)
    with ⟨e2, he2⟩
  rcases Option.ne_none_iff_exists'.mp
      (entropy_vec_ne_none (X.map (fun row => npvar row / npmax row)) hne3)
    with ⟨e3, he3⟩
  have hNB : (List.filter id (index_bw fn (npmin fn, npmax fn))).length = fn.length := by
    rw [hiBAND, List.filter_replicate]
    simp
  simp only [spectral_entropy, hXsel, he1, he2, he3]
  split
  · next h =>
      exact absurd h (entropy_hist_ne_none _ _ _ _ (by rw [hNB]; exact hfn0))
  · next r4 h =>
      exact ⟨_, rfl⟩

/-- Claim C5 amended witness: instantiation of spectral_entropy_flim at a
concrete 2 by 2 spectrogram over the frequency vector [0, 100]. -/
theorem spectral_entropy_flim_witness :
    spectral_entropy [[1, 2], [3, 4]] [0, 100] (FlimArg.scalar 7) = Except.ok none ∧
    spectral_entropy [[1, 2], [3, 4]] [0, 100] FlimArg.noneArg
      = spectral_entropy [[1, 2], [3, 4]] [0, 100]
          (FlimArg.tuple (npmin [0, 100]) (npmax [0, 100])) ∧
    ∃ r, spectral_entropy [[1, 2], [3, 4]] [0, 100] FlimArg.noneArg = Except.ok (some r) :=
  spectral_entropy_flim [[1, 2], [3, 4]] [0, 100] 7 (by simp) (by simp)

end AlphaIndices
